import Mathlib

/-!
# Verification of the profession similarity-search core

Shallow embedding of `api/vector_search.py` (embedding store + similarity
ranker) and of the relevant parts of `api/main.py` (the `/users/search`
and `/users` HTTP handlers), together with proofs of the specified
properties.

Modelling conventions:
* A CSV row is a `Record` with `id` and `profession` strings
  (`user.get('id', '')` / `user.get('profession', '')`: an absent key is
  the empty string) and an optional parsed `created_date`
  (absent or empty string ↦ `none`); dates are modelled as integers,
  only their order matters.
* The sentence-transformers model is an opaque text→vector function
  `m : String → V`; `_model is None` is `modelLoaded = false`.
  A batch `encode` call on a list of texts returns the per-text
  encodings in order, i.e. `texts.map m`.
* Python `dict`s (`_embeddings`, `_professions`) are association lists
  in insertion order: writing to an existing key updates the value in
  place keeping its position, exactly like a Python dict
  (`dictInsert`); iteration order is list order.
* Python's `list.sort(key=..., reverse=True)` is a stable descending
  sort; we model it by `List.insertionSort` with the relation
  "score of the right argument ≤ score of the left", which is the
  canonical stable sort and extensionally equal to any stable sort.
* `raise RuntimeError` (the spec's `NotInitializedError`) is the
  `Except.error ()` branch.
-/

/-- A user record as produced by the CSV loader: `id` and `profession`
default to `""` when absent; `created_date` is `none` when the CSV cell
is absent or empty. -/
structure Record where
  id : String
  profession : String
  created_date : Option Int
deriving DecidableEq

/-- The process-wide state of `vector_search.py`: whether `_model` has
been loaded, plus the `_embeddings` and `_professions` dicts (insertion
ordered association lists). -/
structure VState (V : Type) where
  modelLoaded : Bool
  embeddings : List (String × V)
  professions : List (String × String)
deriving DecidableEq

/-- The state before any call: `_model = None` and both dicts empty. -/
def VState.empty (V : Type) : VState V := ⟨false, [], []⟩

/-- `d[k] = v` on a Python dict: if the key is present its value is
updated in place (the entry keeps its position in iteration order),
otherwise the new entry is appended at the end. -/
def dictInsert (k : String) (v : β) : List (String × β) → List (String × β)
  | [] => [(k, v)]
  | (k', v') :: d => if k' = k then (k, v) :: d else (k', v') :: dictInsert k v d

/-- `d.get(k)` / `d[k]` on a Python dict (as an `Option`). -/
def dictGet : List (String × β) → String → Option β
  | [], _ => none
  | e :: d, k => if e.1 = k then some e.2 else dictGet d k

/-- The filter in `initialize_vector_db`'s collection loop:
`if profession and user_id` keeps rows whose profession and id are both
non-empty strings. -/
def validRecord (u : Record) : Bool :=
  u.profession != "" && u.id != ""

/-- `initialize_vector_db(csv_data)`: loads the model if needed, clears
`_embeddings` and `_professions`, collects the ids and profession texts
of valid rows, encodes the texts in one batch call
(`_model.encode(professions_to_embed)` = `texts.map m`), and stores the
resulting vectors and texts keyed by user id. The prior state `s` is
discarded except for the already-loaded model. -/
def initialize_vector_db (m : String → V) (csv : List Record) (_s : VState V) :
    VState V :=
  let valid := csv.filter validRecord
  let ids := valid.map (·.id)
  let texts := valid.map (·.profession)
  let embs := texts.map m
  let triples := ids.zip (embs.zip texts)
  { modelLoaded := true
    embeddings := triples.foldl (fun d t => dictInsert t.1 t.2.1 d) []
    professions := triples.foldl (fun d t => dictInsert t.1 t.2.2 d) [] }

/-- One iteration of the scoring loop in `search_similar_professions`:
an `(user_id, embedding)` entry becomes
`(user_id, similarity(query, embedding), _professions[user_id])`. -/
def scoreEntry (sim : V → V → α) (qv : V) (profs : List (String × String))
    (e : String × V) : String × α × String :=
  (e.1, sim qv e.2, (dictGet profs e.1).getD "")

/-- The comparison used by
`similarities.sort(key=lambda x: x[1], reverse=True)`: `x` may come
before `y` iff `y`'s score is ≤ `x`'s score. -/
def scoreGE [LE α] (x y : String × α × String) : Prop := y.2.1 ≤ x.2.1

instance [LinearOrder α] : DecidableRel (scoreGE (α := α)) :=
  fun x y => inferInstanceAs (Decidable (y.2.1 ≤ x.2.1))

instance [LinearOrder α] : IsTotal (String × α × String) scoreGE :=
  ⟨fun x y => (le_total y.2.1 x.2.1).imp (fun h => h) (fun h => h)⟩

instance [LinearOrder α] : IsTrans (String × α × String) scoreGE :=
  ⟨fun _ _ _ h1 h2 => le_trans h2 h1⟩

/-- `search_similar_professions(query_profession, limit)`:
raises (`Except.error ()`) when `_model is None or not _embeddings`;
otherwise encodes the query, scores every stored embedding, sorts the
scored entries by score descending with a stable sort, and returns the
first `limit` of them. -/
def search_similar_professions (m : String → V) (sim : V → V → α) [LinearOrder α]
    (q : String) (limit : Nat) (s : VState V) :
    Except Unit (List (String × α × String)) :=
  if !s.modelLoaded || s.embeddings.isEmpty then
    .error ()
  else
    let qv := m q
    let sims := s.embeddings.map (scoreEntry sim qv s.professions)
    .ok ((sims.insertionSort scoreGE).take limit)

/-- `close_connection()`: clears `_embeddings` and `_professions`
(the loaded `_model` is kept). -/
def close_connection (s : VState V) : VState V :=
  { s with embeddings := [], professions := [] }

/-! ## HTTP layer (`api/main.py`) -/

/-- An HTTP handler outcome: a JSON body or an `HTTPException` status. -/
inductive HttpResult (β : Type) where
  | ok (body : β)
  | error (status : Nat)
deriving DecidableEq

/-- The two date-range guards shared by `/users/search` and `/users`:
`if start_date_obj and user.get('created_date'): if created < start: continue`
and symmetrically for `end_date`. A record with no (or empty)
`created_date` passes both guards. -/
def dateFilterPass (sd ed : Option Int) (u : Record) : Bool :=
  (match sd, u.created_date with
   | some d, some c => !(c < d)
   | _, _ => true) &&
  (match ed, u.created_date with
   | some d, some c => !(d < c)
   | _, _ => true)

/-- The per-entry body of the result loop in `/users/search`: look the
ranked id up in the user dict (`if user_id in user_dict`), apply the
date guards, and on success pair the user record with its similarity
score. `none` means the entry is skipped (`continue`). -/
def enrichEntry (userDict : List (String × Record)) (sd ed : Option Int)
    (e : String × α × String) : Option (Record × α) :=
  match dictGet userDict e.1 with
  | none => none
  | some u => if dateFilterPass sd ed u then some (u, e.2.1) else none

/-- The result loop of `/users/search`: traverse the ranked entries,
keep those `f` accepts, and `break` as soon as `limit` results have
been collected (`if len(results) >= limit: break`). -/
def collectLimited (f : γ → Option δ) (limit : Nat) : List γ → List δ
  | [] => []
  | x :: xs =>
    match f x with
    | none => collectLimited f limit xs
    | some y => if limit ≤ 1 then [y] else y :: collectLimited f (limit - 1) xs

/-- `user_dict = {user['id']: user for user in users}`. -/
def usersDict (users : List Record) : List (String × Record) :=
  users.foldl (fun d u => dictInsert u.id u d) []

/-- The `/users/search` handler (`search_users_by_profession` in
`main.py`), with dates already parsed: calls the ranker with an
oversampled `limit * 2`, turns a ranker error into HTTP 500, and
otherwise filters the ranked entries against the user dict and the date
guards, truncating at `limit`. (The handler also rounds the score to 4
decimals and stringifies the date for JSON; both are presentational and
not modelled.) -/
def search_users_by_profession (m : String → V) (sim : V → V → α) [LinearOrder α]
    (users : List Record) (s : VState V) (q : String) (limit : Nat)
    (sd ed : Option Int) : HttpResult (List (Record × α)) :=
  match search_similar_professions m sim q (limit * 2) s with
  | .error _ => .error 500
  | .ok results =>
    .ok (collectLimited (enrichEntry (usersDict users) sd ed) limit results)

/-- The profession guard of `/users`: `if profession:` (skipped for an
empty filter string) then keep only case-insensitive exact matches. -/
def professionPass (prof : Option String) (u : Record) : Bool :=
  match prof with
  | none => true
  | some p => p == "" || u.profession.toLower == p.toLower

/-- The `/users` handler (`get_users` in `main.py`), with dates already
parsed: keeps the users that pass the date guards and the profession
guard, in input order. -/
def get_users (users : List Record) (sd ed : Option Int) (prof : Option String) :
    List Record :=
  users.filter fun u => dateFilterPass sd ed u && professionPass prof u

/-! ## Dictionary lemmas -/

/-- Lookup after a Python-dict write: the written key yields the new
value, other keys are untouched. -/
theorem dictGet_dictInsert (k k' : String) (v : β) (d : List (String × β)) :
    dictGet (dictInsert k v d) k' = if k' = k then some v else dictGet d k' := by
  induction d with
  | nil =>
    simp only [dictInsert, dictGet]
    by_cases h : k' = k
    · simp [h]
    · simp [h, Ne.symm h]
  | cons a d ih =>
    obtain ⟨ak, av⟩ := a
    simp only [dictInsert]
    by_cases hak : ak = k
    · subst hak
      rw [if_pos rfl]
      simp only [dictGet]
      by_cases h : k' = ak
      · simp [h]
      · simp [h, Ne.symm h]
    · rw [if_neg hak]
      simp only [dictGet, ih]
      by_cases h2 : ak = k'
      · subst h2
        simp [hak]
      · simp [h2]

/-- Key membership after a Python-dict write. -/
theorem mem_keys_dictInsert (k k' : String) (v : β) (d : List (String × β)) :
    k' ∈ (dictInsert k v d).map Prod.fst ↔ k' = k ∨ k' ∈ d.map Prod.fst := by
  induction d with
  | nil => simp [dictInsert]
  | cons a d ih =>
    obtain ⟨ak, av⟩ := a
    simp only [dictInsert]
    by_cases hak : ak = k
    · subst hak
      rw [if_pos rfl]
      simp only [List.map_cons, List.mem_cons]
      tauto
    · rw [if_neg hak]
      simp only [List.map_cons, List.mem_cons, ih]
      tauto

/-- A Python-dict write preserves distinctness of the keys. -/
theorem nodup_keys_dictInsert (k : String) (v : β) (d : List (String × β))
    (h : (d.map Prod.fst).Nodup) : ((dictInsert k v d).map Prod.fst).Nodup := by
  induction d with
  | nil => simp [dictInsert]
  | cons a d ih =>
    obtain ⟨ak, av⟩ := a
    simp only [dictInsert]
    by_cases hak : ak = k
    · subst hak
      rw [if_pos rfl]
      simpa using h
    · rw [if_neg hak]
      simp only [List.map_cons, List.nodup_cons] at h
      simp only [List.map_cons, List.nodup_cons]
      refine ⟨fun hmem => ?_, ih h.2⟩
      rcases (mem_keys_dictInsert k ak v d).mp hmem with h1 | h1
      · exact hak h1
      · exact h.1 h1

/-- Size after a Python-dict write: unchanged on an existing key, one
more on a fresh one. -/
theorem length_dictInsert (k : String) (v : β) (d : List (String × β)) :
    (dictInsert k v d).length =
      if k ∈ d.map Prod.fst then d.length else d.length + 1 := by
  induction d with
  | nil => simp [dictInsert]
  | cons a d ih =>
    obtain ⟨ak, av⟩ := a
    simp only [dictInsert]
    by_cases hak : ak = k
    · subst hak
      rw [if_pos rfl]
      simp
    · rw [if_neg hak]
      have hk : ¬ k = ak := fun he => hak he.symm
      simp only [List.length_cons, List.map_cons, List.mem_cons, hk, false_or, ih]
      split <;> simp

/-- An entry produced by a Python-dict write is either the written pair
or one of the old entries. -/
theorem mem_dictInsert (k : String) (v : β) (d : List (String × β))
    (x : String × β) (hx : x ∈ dictInsert k v d) : x = (k, v) ∨ x ∈ d := by
  induction d with
  | nil => simpa [dictInsert] using hx
  | cons a d ih =>
    obtain ⟨ak, av⟩ := a
    simp only [dictInsert] at hx
    by_cases hak : ak = k
    · rw [if_pos hak] at hx
      simp only [List.mem_cons] at hx
      rcases hx with h | h
      · exact Or.inl h
      · exact Or.inr (List.mem_cons_of_mem _ h)
    · rw [if_neg hak] at hx
      simp only [List.mem_cons] at hx
      rcases hx with h | h
      · exact Or.inr (h ▸ List.mem_cons_self _ d)
      · rcases ih h with h' | h'
        · exact Or.inl h'
        · exact Or.inr (List.mem_cons_of_mem _ h')

/-- A key has a value exactly when it occurs among the dict's keys. -/
theorem dictGet_isSome_iff (d : List (String × β)) (k : String) :
    (dictGet d k).isSome ↔ k ∈ d.map Prod.fst := by
  induction d with
  | nil => simp [dictGet]
  | cons a d ih =>
    obtain ⟨ak, av⟩ := a
    by_cases h : ak = k
    · simp [dictGet, h]
    · have h2 : ¬ k = ak := fun he => h he.symm
      simp [dictGet, h, h2, ih]

/-- Folding Python-dict writes over a list: the final value at key `k`
is taken from the last element of the list with that key, and from the
initial dict when no element has it. -/
theorem dictGet_foldl_dictInsert (f : γ → String) (g : γ → β) :
    ∀ (l : List γ) (init : List (String × β)) (k : String),
    dictGet (l.foldl (fun d t => dictInsert (f t) (g t) d) init) k =
      ((l.reverse.find? (fun t => f t == k)).map g).or (dictGet init k)
  | [], init, k => by simp
  | x :: xs, init, k => by
    have ih := dictGet_foldl_dictInsert f g xs (dictInsert (f x) (g x) init) k
    simp only [List.foldl_cons]
    rw [ih, List.reverse_cons, List.find?_append, dictGet_dictInsert]
    cases hfind : xs.reverse.find? (fun t => f t == k) with
    | some t => simp
    | none =>
      simp only [Option.map_none', Option.none_or, List.find?_cons, List.find?_nil]
      by_cases hk : f x = k
      · simp [hk]
      · have h1 : (f x == k) = false := by
          simpa using hk
        have h2 : ¬ k = f x := fun he => hk he.symm
        simp [h1, h2]

/-- Folded Python-dict writes keep the keys distinct. -/
theorem nodup_keys_foldl_dictInsert (f : γ → String) (g : γ → β) :
    ∀ (l : List γ) (init : List (String × β)),
    (init.map Prod.fst).Nodup →
    ((l.foldl (fun d t => dictInsert (f t) (g t) d) init).map Prod.fst).Nodup
  | [], _, h => h
  | x :: xs, init, h => by
    simp only [List.foldl_cons]
    exact nodup_keys_foldl_dictInsert f g xs _ (nodup_keys_dictInsert _ _ _ h)

/-- Zipping the mapped ids, vectors and texts of a list of records is
the same as mapping the triple-former over the records. -/
theorem zip_map_triple (f : γ → σ) (g : γ → τ) (h : γ → υ) :
    ∀ l : List γ, (l.map f).zip ((l.map g).zip (l.map h)) =
      l.map fun x => (f x, g x, h x)
  | [] => rfl
  | x :: xs => by
    simp only [List.map_cons, List.zip_cons_cons, zip_map_triple f g h xs]

/-- `dictGet_foldl_dictInsert` specialized to the embedding-store fold
(key `t.1`, value the vector `t.2.1`). -/
theorem dictGet_foldl_emb (l : List (String × V × String))
    (init : List (String × V)) (k : String) :
    dictGet (l.foldl (fun d t => dictInsert t.1 t.2.1 d) init) k =
      ((l.reverse.find? (fun t => t.1 == k)).map (fun t => t.2.1)).or
        (dictGet init k) :=
  dictGet_foldl_dictInsert Prod.fst (fun t => t.2.1) l init k

/-- `dictGet_foldl_dictInsert` specialized to the profession-store fold
(key `t.1`, value the text `t.2.2`). -/
theorem dictGet_foldl_prof (l : List (String × V × String))
    (init : List (String × String)) (k : String) :
    dictGet (l.foldl (fun d t => dictInsert t.1 t.2.2 d) init) k =
      ((l.reverse.find? (fun t => t.1 == k)).map (fun t => t.2.2)).or
        (dictGet init k) :=
  dictGet_foldl_dictInsert Prod.fst (fun t => t.2.2) l init k

/-- The last record of the input whose id is `k` among those kept by
the `initialize_vector_db` filter: its vector and text win in the
store. -/
def lastValid (csv : List Record) (k : String) : Option Record :=
  (csv.filter validRecord).reverse.find? (fun u => u.id == k)

/-- Stored vector at key `k` after initialization: the encoding of the
last valid input record with that id. -/
theorem embeddings_init_get (m : String → V) (csv : List Record) (s : VState V)
    (k : String) :
    dictGet (initialize_vector_db m csv s).embeddings k =
      (lastValid csv k).map (fun u => m u.profession) := by
  unfold initialize_vector_db lastValid
  simp only [List.map_map]
  rw [zip_map_triple, dictGet_foldl_emb]
  simp only [dictGet, Option.or_none, ← List.map_reverse, List.find?_map]
  rw [Option.map_map]
  rfl

/-- Stored text at key `k` after initialization: the profession of the
last valid input record with that id. -/
theorem professions_init_get (m : String → V) (csv : List Record) (s : VState V)
    (k : String) :
    dictGet (initialize_vector_db m csv s).professions k =
      (lastValid csv k).map (·.profession) := by
  unfold initialize_vector_db lastValid
  simp only [List.map_map]
  rw [zip_map_triple, dictGet_foldl_prof]
  simp only [dictGet, Option.or_none, ← List.map_reverse, List.find?_map]
  rw [Option.map_map]
  rfl

/-- The store keys after initialization are distinct. -/
theorem nodup_keys_init (m : String → V) (csv : List Record) (s : VState V) :
    ((initialize_vector_db m csv s).embeddings.map Prod.fst).Nodup := by
  unfold initialize_vector_db
  simp only
  exact nodup_keys_foldl_dictInsert _ _ _ _ (by simp)

/-! ## Sorting lemmas -/

/-- Stability of the descending score sort: for any fixed score `c`,
the entries scoring `c` appear in the sorted list exactly in their
input (store-iteration) order. -/
theorem filter_score_insertionSort [LinearOrder α]
    (l : List (String × α × String)) (c : α) :
    (l.insertionSort scoreGE).filter (fun e => decide (e.2.1 = c)) =
      l.filter (fun e => decide (e.2.1 = c)) := by
  set p : String × α × String → Bool := fun e => decide (e.2.1 = c) with hp
  have hpair : (l.filter p).Pairwise scoreGE := by
    refine List.pairwise_of_forall_mem_list ?_
    intro a ha b hb
    have h1 : a.2.1 = c := by simpa [hp] using (List.mem_filter.mp ha).2
    have h2 : b.2.1 = c := by simpa [hp] using (List.mem_filter.mp hb).2
    show b.2.1 ≤ a.2.1
    rw [h1, h2]
  have hsub : List.Sublist (l.filter p) (l.insertionSort scoreGE) :=
    List.sublist_insertionSort hpair (List.filter_sublist l)
  have hself : (l.filter p).filter p = l.filter p :=
    List.filter_eq_self.mpr fun a ha => (List.mem_filter.mp ha).2
  have hsub2 : List.Sublist (l.filter p) ((l.insertionSort scoreGE).filter p) := by
    have := hsub.filter p
    rwa [hself] at this
  have hperm : List.Perm ((l.insertionSort scoreGE).filter p) (l.filter p) :=
    (List.perm_insertionSort scoreGE l).filter p
  exact (hsub2.eq_of_length hperm.length_eq.symm).symm

/-- Every entry of a successful search is one of the stored embeddings,
scored against the encoded query. -/
theorem mem_search_ok [LinearOrder α] (m : String → V) (sim : V → V → α)
    (q : String) (limit : Nat) (s : VState V)
    (out : List (String × α × String))
    (hout : search_similar_professions m sim q limit s = .ok out)
    (e : String × α × String) (he : e ∈ out) :
    ∃ p ∈ s.embeddings, e = scoreEntry sim (m q) s.professions p := by
  unfold search_similar_professions at hout
  by_cases hc : (!s.modelLoaded || s.embeddings.isEmpty) = true
  · rw [if_pos hc] at hout
    exact absurd hout (by simp)
  · rw [if_neg hc] at hout
    have hout' : (((s.embeddings.map
        (scoreEntry sim (m q) s.professions)).insertionSort scoreGE).take limit) = out := by
      simpa using hout
    subst hout'
    have h1 : e ∈ (s.embeddings.map
        (scoreEntry sim (m q) s.professions)).insertionSort scoreGE :=
      (List.take_sublist _ _).mem he
    have h2 : e ∈ s.embeddings.map (scoreEntry sim (m q) s.professions) :=
      (List.perm_insertionSort _ _).mem_iff.mp h1
    rcases List.mem_map.mp h2 with ⟨p, hp, hpe⟩
    exact ⟨p, hp, hpe.symm⟩

/-! ## Cosine geometry (`scipy.spatial.distance.cosine`) -/

/-- The cosine of the angle between two vectors:
`⟨u,v⟩ / (‖u‖·‖v‖)`. -/
noncomputable def cosineSim {n : ℕ} (u v : EuclideanSpace ℝ (Fin n)) : ℝ :=
  (inner u v : ℝ) / (‖u‖ * ‖v‖)

/-- `scipy.spatial.distance.cosine(u, v) = 1 - ⟨u,v⟩/(‖u‖·‖v‖)`. -/
noncomputable def cosineDistance {n : ℕ} (u v : EuclideanSpace ℝ (Fin n)) : ℝ :=
  1 - cosineSim u v

/-- The per-entry score of `search_similar_professions`:
`similarity = 1.0 - (distance / 2.0)`. -/
noncomputable def pySimilarity {n : ℕ} (u v : EuclideanSpace ℝ (Fin n)) : ℝ :=
  1 - cosineDistance u v / 2

/-- Cauchy–Schwarz in ratio form: for nonzero vectors the cosine lies
in `[-1, 1]`. -/
theorem cosineSim_bounds {n : ℕ} (u v : EuclideanSpace ℝ (Fin n))
    (hu : u ≠ 0) (hv : v ≠ 0) : -1 ≤ cosineSim u v ∧ cosineSim u v ≤ 1 := by
  have hN : 0 < ‖u‖ * ‖v‖ :=
    mul_pos (norm_pos_iff.mpr hu) (norm_pos_iff.mpr hv)
  have habs := abs_real_inner_le_norm u v
  rw [abs_le] at habs
  constructor
  · rw [cosineSim, le_div_iff₀ hN]
    linarith [habs.1]
  · rw [cosineSim, div_le_one hN]
    exact habs.2

/-- For nonzero vectors the scipy cosine distance lies in `[0, 2]`. -/
theorem cosineDistance_bounds {n : ℕ} (u v : EuclideanSpace ℝ (Fin n))
    (hu : u ≠ 0) (hv : v ≠ 0) :
    0 ≤ cosineDistance u v ∧ cosineDistance u v ≤ 2 := by
  have h := cosineSim_bounds u v hu hv
  unfold cosineDistance
  constructor <;> linarith [h.1, h.2]

/-- The code's rescaling agrees with `(1 + cos θ) / 2`. -/
theorem pySimilarity_eq_half_one_add {n : ℕ} (u v : EuclideanSpace ℝ (Fin n)) :
    pySimilarity u v = (1 + cosineSim u v) / 2 := by
  unfold pySimilarity cosineDistance
  ring

/-- For nonzero vectors the code's similarity lies in `[0, 1]`. -/
theorem pySimilarity_bounds {n : ℕ} (u v : EuclideanSpace ℝ (Fin n))
    (hu : u ≠ 0) (hv : v ≠ 0) :
    0 ≤ pySimilarity u v ∧ pySimilarity u v ≤ 1 := by
  have h := cosineSim_bounds u v hu hv
  rw [pySimilarity_eq_half_one_add]
  constructor <;> linarith [h.1, h.2]

/-! ## Claims -/

/-- **C1.** For every stored entry scored by `search`, the returned
similarity score equals `1 − cosine_distance/2` between the query
vector and that entry's stored vector — the exact rescaling
`(1 + cos θ)/2`, not raw cosine similarity — and, the cosine distance
lying in `[0, 2]` for nonzero vectors, every returned score lies in
`[0, 1]`. -/
theorem c1_similarity_rescaling {n : ℕ} (m : String → EuclideanSpace ℝ (Fin n))
    (q : String) (limit : Nat) (s : VState (EuclideanSpace ℝ (Fin n)))
    (hvec : ∀ p ∈ s.embeddings, p.2 ≠ (0 : EuclideanSpace ℝ (Fin n)))
    (hq : m q ≠ 0)
    (out : List (String × ℝ × String))
    (hout : search_similar_professions m pySimilarity q limit s = .ok out) :
    ∀ e ∈ out,
      (∃ p ∈ s.embeddings, e.1 = p.1 ∧
        e.2.1 = 1 - cosineDistance (m q) p.2 / 2 ∧
        0 ≤ cosineDistance (m q) p.2 ∧ cosineDistance (m q) p.2 ≤ 2 ∧
        e.2.1 = (1 + cosineSim (m q) p.2) / 2) ∧
      0 ≤ e.2.1 ∧ e.2.1 ≤ 1 := by
  intro e he
  obtain ⟨p, hp, hpe⟩ := mem_search_ok m pySimilarity q limit s out hout e he
  have hv := hvec p hp
  have hscore : e.2.1 = pySimilarity (m q) p.2 := by rw [hpe]; rfl
  have hdist := cosineDistance_bounds (m q) p.2 hq hv
  have hbnd := pySimilarity_bounds (m q) p.2 hq hv
  refine ⟨⟨p, hp, by rw [hpe]; rfl, ?_, hdist.1, hdist.2, ?_⟩, ?_, ?_⟩
  · rw [hscore]; rfl
  · rw [hscore, pySimilarity_eq_half_one_add]
  · rw [hscore]; exact hbnd.1
  · rw [hscore]; exact hbnd.2

/-- A concrete nonzero query/store vector for exercising `c1`. -/
noncomputable def e1 : EuclideanSpace ℝ (Fin 1) :=
  EuclideanSpace.single (0 : Fin 1) (1 : ℝ)

theorem e1_ne_zero : e1 ≠ 0 := by
  intro h
  have := congrArg norm h
  rw [e1, EuclideanSpace.norm_single] at this
  simp at this

/-- Witness for **C1** on a concrete one-entry store. -/
theorem c1_similarity_rescaling_witness :
    0 ≤ pySimilarity e1 e1 ∧ pySimilarity e1 e1 ≤ 1 := by
  have h := c1_similarity_rescaling (fun _ => e1) "q" 10
    ⟨true, [("a", e1)], [("a", "p")]⟩
    (by intro p hp; simp at hp; rw [hp]; exact e1_ne_zero)
    e1_ne_zero
    [("a", pySimilarity e1 e1, "p")] rfl
    ("a", pySimilarity e1 e1, "p") (by simp)
  exact ⟨h.2.1, h.2.2⟩

/-- **C2.** A successful search result is sorted non-increasing by
score, and it is the `limit`-prefix of a full ranking in which, for
every score value, the equally-scored entries appear exactly in
store-iteration (insertion) order: the sort is stable. -/
theorem c2_sorted_stable {V : Type} [LinearOrder α] (m : String → V)
    (sim : V → V → α) (q : String) (limit : Nat) (s : VState V)
    (out : List (String × α × String))
    (hout : search_similar_professions m sim q limit s = .ok out) :
    out.Pairwise scoreGE ∧
    ∃ full : List (String × α × String),
      out = full.take limit ∧
      full.Pairwise scoreGE ∧
      ∀ c : α, full.filter (fun e => decide (e.2.1 = c)) =
        (s.embeddings.map (scoreEntry sim (m q) s.professions)).filter
          (fun e => decide (e.2.1 = c)) := by
  unfold search_similar_professions at hout
  by_cases hc : (!s.modelLoaded || s.embeddings.isEmpty) = true
  · rw [if_pos hc] at hout
    exact absurd hout (by simp)
  · rw [if_neg hc] at hout
    have hout' : (((s.embeddings.map
        (scoreEntry sim (m q) s.professions)).insertionSort scoreGE).take limit)
        = out := by
      simpa using hout
    subst hout'
    have hsorted : ((s.embeddings.map
        (scoreEntry sim (m q) s.professions)).insertionSort scoreGE).Pairwise
        scoreGE :=
      List.sorted_insertionSort scoreGE _
    refine ⟨hsorted.sublist (List.take_sublist _ _), _, rfl, hsorted, ?_⟩
    intro c
    exact filter_score_insertionSort _ c

/-- Witness for **C2** on a concrete two-entry store over `Int`. -/
theorem c2_sorted_stable_witness :
    List.Pairwise scoreGE [("b", (6 : Int), "yyy"), ("a", 4, "xx")] ∧
    ∃ full : List (String × Int × String),
      [("b", (6 : Int), "yyy"), ("a", 4, "xx")] = full.take 10 ∧
      full.Pairwise scoreGE ∧
      ∀ c : Int, full.filter (fun e => decide (e.2.1 = c)) =
        (([("a", (2 : Int)), ("b", 3)] : List (String × Int)).map
          (scoreEntry (fun a b => a * b) 2 [("a", "xx"), ("b", "yyy")])).filter
          (fun e => decide (e.2.1 = c)) :=
  c2_sorted_stable (fun t => (t.length : Int)) (fun a b => a * b) "qq" 10
    ⟨true, [("a", 2), ("b", 3)], [("a", "xx"), ("b", "yyy")]⟩
    [("b", 6, "yyy"), ("a", 4, "xx")] rfl

/-- **C3.** On a non-empty initialized store with `n` entries and a
positive `limit`, search succeeds and returns exactly
`min limit n` results: at most `limit`, and all `n` (not an error)
when `n < limit`. -/
theorem c3_result_count {V : Type} [LinearOrder α] (m : String → V)
    (sim : V → V → α) (q : String) (limit : Nat) (s : VState V)
    (hm : s.modelLoaded = true) (hne : s.embeddings ≠ [])
    (_hpos : 1 ≤ limit) :
    ∃ out, search_similar_professions m sim q limit s = .ok out ∧
      out.length = min limit s.embeddings.length ∧
      out.length ≤ limit ∧
      (s.embeddings.length < limit → out.length = s.embeddings.length) := by
  have hc : (!s.modelLoaded || s.embeddings.isEmpty) = false := by
    simp [hm, hne]
  refine ⟨((s.embeddings.map
      (scoreEntry sim (m q) s.professions)).insertionSort scoreGE).take limit,
    ?_, ?_, ?_, ?_⟩
  · unfold search_similar_professions
    rw [hc]
    simp only [Bool.false_eq_true, if_false]
  · simp [List.length_take, List.length_insertionSort]
  · simp [List.length_take]
  · intro hlt
    simp [List.length_take, List.length_insertionSort, Nat.min_eq_right
      (Nat.le_of_lt hlt)]

/-- Witness for **C3** on a concrete two-entry store over `Int`. -/
theorem c3_result_count_witness :
    (⟨true, [("a", (2 : Int)), ("b", 3)], [("a", "xx"), ("b", "yyy")]⟩ :
      VState Int).modelLoaded = true ∧
    ∃ out, search_similar_professions (fun t => (t.length : Int))
        (fun a b => a * b) "qq" 10
        ⟨true, [("a", 2), ("b", 3)], [("a", "xx"), ("b", "yyy")]⟩ = .ok out ∧
      out.length = min 10 2 ∧ out.length ≤ 10 ∧ (2 < 10 → out.length = 2) := by
  refine ⟨rfl, ?_⟩
  exact c3_result_count (fun t => (t.length : Int)) (fun a b => a * b) "qq" 10
    ⟨true, [("a", 2), ("b", 3)], [("a", "xx"), ("b", "yyy")]⟩
    rfl (by simp) (by simp)

/-- **C4.** `search` raises `NotInitializedError` (the `RuntimeError`
branch) iff the store holds no embeddings or the model has not been
loaded; the `/users/search` handler translates this error into an HTTP
500 server error — it never silently returns an empty `ok` body for an
uninitialized store. -/
theorem c4_not_initialized {V : Type} [LinearOrder α] (m : String → V)
    (sim : V → V → α) (q : String) (limit : Nat) (s : VState V)
    (users : List Record) (sd ed : Option Int) :
    (search_similar_professions m sim q limit s = .error () ↔
      s.modelLoaded = false ∨ s.embeddings = []) ∧
    ((s.modelLoaded = false ∨ s.embeddings = []) →
      search_users_by_profession m sim users s q limit sd ed = .error 500) := by
  have hiff : (!s.modelLoaded || s.embeddings.isEmpty) = true ↔
      s.modelLoaded = false ∨ s.embeddings = [] := by
    simp [Bool.or_eq_true, List.isEmpty_iff]
  constructor
  · unfold search_similar_professions
    by_cases hc : (!s.modelLoaded || s.embeddings.isEmpty) = true
    · rw [if_pos hc]
      simp [hiff.mp hc]
    · rw [if_neg hc]
      constructor
      · intro h; exact absurd h (by simp)
      · intro h; exact absurd (hiff.mpr h) hc
  · intro h
    unfold search_users_by_profession search_similar_professions
    rw [if_pos (hiff.mpr h)]

/-- Witness for **C4** at a concrete uninitialized store. -/
theorem c4_not_initialized_witness :
    (search_similar_professions (fun t => (t.length : Int)) (fun a b => a * b)
      "q" 10 (VState.empty Int) = .error () ↔
      (VState.empty Int).modelLoaded = false ∨
        (VState.empty Int).embeddings = []) ∧
    (((VState.empty Int).modelLoaded = false ∨
        (VState.empty Int).embeddings = []) →
      search_users_by_profession (fun t => (t.length : Int)) (fun a b => a * b)
        [] (VState.empty Int) "q" 10 none none = .error 500) :=
  c4_not_initialized (fun t => (t.length : Int)) (fun a b => a * b) "q" 10
    (VState.empty Int) [] none none

/-- A successful `lastValid` lookup comes from a valid input record
with the looked-up id. -/
theorem lastValid_some (csv : List Record) (k : String) (u : Record)
    (h : lastValid csv k = some u) :
    u ∈ csv ∧ validRecord u = true ∧ u.id = k := by
  have hmem := List.mem_of_find?_eq_some h
  have hpred := List.find?_some h
  rw [List.mem_reverse, List.mem_filter] at hmem
  exact ⟨hmem.1, hmem.2, by simpa using hpred⟩

/-- **C5.** `initialize` discards all prior store contents (the result
does not depend on the prior state); afterwards the store holds a
vector exactly for the ids of input records with non-empty id and
non-empty profession, each id mapping to the encoding of its record's
profession text alongside that text; consequently a search after
re-initialization only returns ids present in the new record set. -/
theorem c5_initialize_replaces {V : Type} [LinearOrder α] (m : String → V)
    (sim : V → V → α) (csv : List Record) (s s' : VState V) (q : String)
    (limit : Nat) :
    initialize_vector_db m csv s = initialize_vector_db m csv s' ∧
    (∀ k : String,
      (∃ v, dictGet (initialize_vector_db m csv s).embeddings k = some v) ↔
        ∃ u ∈ csv, u.id = k ∧ u.id ≠ "" ∧ u.profession ≠ "") ∧
    (∀ k v, dictGet (initialize_vector_db m csv s).embeddings k = some v →
      ∃ u ∈ csv, u.id = k ∧ validRecord u = true ∧ v = m u.profession ∧
        dictGet (initialize_vector_db m csv s).professions k =
          some u.profession) ∧
    (∀ out, search_similar_professions m sim q limit
        (initialize_vector_db m csv s) = .ok out →
      ∀ e ∈ out, ∃ u ∈ csv, u.id = e.1 ∧ validRecord u = true) := by
  refine ⟨rfl, ?_, ?_, ?_⟩
  · intro k
    rw [embeddings_init_get]
    constructor
    · rintro ⟨v, hv⟩
      rcases Option.map_eq_some'.mp hv with ⟨u, hu, -⟩
      obtain ⟨h1, h2, h3⟩ := lastValid_some csv k u hu
      have h4 : ¬ u.id = "" ∧ ¬ u.profession = "" := by
        simpa [validRecord, and_comm] using h2
      exact ⟨u, h1, h3, h4.1, h4.2⟩
    · rintro ⟨u, hu, hid, hid', hprof⟩
      have hvalid : validRecord u = true := by simp [validRecord, hid', hprof]
      have hsome : (lastValid csv k).isSome := by
        unfold lastValid
        rw [List.find?_isSome]
        exact ⟨u, by rw [List.mem_reverse, List.mem_filter]; exact ⟨hu, hvalid⟩,
          by simp [hid]⟩
      rcases Option.isSome_iff_exists.mp hsome with ⟨w, hw⟩
      exact ⟨m w.profession, by rw [hw]; rfl⟩
  · intro k v hv
    rw [embeddings_init_get] at hv
    rcases Option.map_eq_some'.mp hv with ⟨u, hu, huv⟩
    obtain ⟨h1, h2, h3⟩ := lastValid_some csv k u hu
    refine ⟨u, h1, h3, h2, huv.symm, ?_⟩
    rw [professions_init_get, hu]
    rfl
  · intro out hout e he
    obtain ⟨p, hp, hpe⟩ := mem_search_ok m sim q limit _ out hout e he
    have hkey : ((initialize_vector_db m csv s).embeddings.map Prod.fst).Mem p.1 :=
      List.mem_map_of_mem Prod.fst hp
    have hsome := (dictGet_isSome_iff _ p.1).mpr hkey
    rcases Option.isSome_iff_exists.mp hsome with ⟨v, hv⟩
    rw [embeddings_init_get] at hv
    rcases Option.map_eq_some'.mp hv with ⟨u, hu, -⟩
    obtain ⟨h1, h2, h3⟩ := lastValid_some csv p.1 u hu
    refine ⟨u, h1, ?_, h2⟩
    rw [h3, hpe]
    rfl

/-- On an initialized store, `search` succeeds with the truncated
stable ranking. -/
theorem search_eq_ok {V : Type} [LinearOrder α] (m : String → V)
    (sim : V → V → α) (q : String) (limit : Nat) (s : VState V)
    (hm : s.modelLoaded = true) (hne : s.embeddings ≠ []) :
    search_similar_professions m sim q limit s =
      .ok (((s.embeddings.map
        (scoreEntry sim (m q) s.professions)).insertionSort scoreGE).take
          limit) := by
  have hc : (!s.modelLoaded || s.embeddings.isEmpty) = false := by
    simp [hm, hne]
  unfold search_similar_professions
  rw [hc]
  simp only [Bool.false_eq_true, if_false]

/-- **C6.** `initialize` on an empty input sequence is not an error: it
leaves the store empty, and any subsequent search raises
`NotInitializedError`. -/
theorem c6_empty_init {V : Type} [LinearOrder α] (m : String → V)
    (sim : V → V → α) (s : VState V) (q : String) (limit : Nat) :
    (initialize_vector_db m [] s).embeddings = [] ∧
    (initialize_vector_db m [] s).professions = [] ∧
    search_similar_professions m sim q limit (initialize_vector_db m [] s) =
      .error () :=
  ⟨rfl, rfl, rfl⟩

/-- **C7.** `clear()` empties both the id→vector and the id→text
mappings; every search on the cleared store raises
`NotInitializedError`; once the store is re-initialized with a record
set containing a valid record, search succeeds again. -/
theorem c7_clear {V : Type} [LinearOrder α] (m : String → V)
    (sim : V → V → α) (s : VState V) (q : String) (limit : Nat)
    (csv : List Record) (hcsv : ∃ u ∈ csv, validRecord u = true) :
    (close_connection s).embeddings = [] ∧
    (close_connection s).professions = [] ∧
    search_similar_professions m sim q limit (close_connection s) =
      .error () ∧
    ∃ out, search_similar_professions m sim q limit
      (initialize_vector_db m csv (close_connection s)) = .ok out := by
  refine ⟨rfl, rfl, ?_, ?_⟩
  · unfold search_similar_professions
    rw [if_pos (by simp [close_connection])]
  obtain ⟨u, hu, huv⟩ := hcsv
  have hsome : (lastValid csv u.id).isSome := by
    unfold lastValid
    rw [List.find?_isSome]
    exact ⟨u, by rw [List.mem_reverse, List.mem_filter]; exact ⟨hu, huv⟩,
      by simp⟩
  have hne : (initialize_vector_db m csv (close_connection s)).embeddings ≠
      [] := by
    intro hempty
    have h := embeddings_init_get m csv (close_connection s) u.id
    rw [hempty] at h
    simp only [dictGet] at h
    rcases Option.isSome_iff_exists.mp hsome with ⟨w, hw⟩
    rw [hw] at h
    exact absurd h.symm (by simp)
  exact ⟨_, search_eq_ok m sim q limit _ rfl hne⟩

/-- Witness for **C7** on a concrete store and record set. -/
theorem c7_clear_witness :
    (close_connection ⟨true, [("z", (1 : Int))], [("z", "t")]⟩).embeddings
        = [] ∧
    (close_connection
        (⟨true, [("z", (1 : Int))], [("z", "t")]⟩ : VState Int)).professions
        = [] ∧
    search_similar_professions (fun t => (t.length : Int)) (fun a b => a * b)
      "q" 10 (close_connection ⟨true, [("z", 1)], [("z", "t")]⟩) =
        .error () ∧
    ∃ out, search_similar_professions (fun t => (t.length : Int))
      (fun a b => a * b) "q" 10
      (initialize_vector_db (fun t => (t.length : Int))
        [⟨"a", "xx", none⟩]
        (close_connection ⟨true, [("z", 1)], [("z", "t")]⟩)) = .ok out :=
  c7_clear (fun t => (t.length : Int)) (fun a b => a * b)
    ⟨true, [("z", 1)], [("z", "t")]⟩ "q" 10 [⟨"a", "xx", none⟩]
    ⟨⟨"a", "xx", none⟩, by simp, by simp [validRecord]⟩

/-- For a positive limit, the `break`-at-`limit` loop collects exactly
the first `limit` accepted entries, in order. -/
theorem collectLimited_eq (f : γ → Option δ) :
    ∀ (l : List γ) (limit : Nat), 1 ≤ limit →
    collectLimited f limit l = (l.filterMap f).take limit
  | [], limit, _ => by simp [collectLimited]
  | x :: xs, limit, hpos => by
    unfold collectLimited
    cases hfx : f x with
    | none => rw [List.filterMap_cons_none hfx]; exact collectLimited_eq f xs limit hpos
    | some y =>
      rw [List.filterMap_cons_some hfx]
      dsimp only
      by_cases h1 : limit ≤ 1
      · have : limit = 1 := Nat.le_antisymm h1 hpos
        subst this
        simp
      · rw [if_neg h1]
        have h2 : 1 ≤ limit - 1 := by omega
        rw [collectLimited_eq f xs (limit - 1) h2]
        cases limit with
        | zero => omega
        | succ n => simp [Nat.succ_sub_one]

/-- Looking a key up in `user_dict` finds the last user with that id. -/
theorem dictGet_usersDict (users : List Record) (k : String) :
    dictGet (usersDict users) k = users.reverse.find? (fun u => u.id == k) := by
  have h := dictGet_foldl_dictInsert (fun u : Record => u.id) (fun u => u)
    users [] k
  simpa [usersDict, dictGet] using h

/-- A user found in `user_dict` under key `k` has id `k`. -/
theorem usersDict_id (users : List Record) (k : String) (u : Record)
    (h : dictGet (usersDict users) k = some u) : u.id = k := by
  rw [dictGet_usersDict] at h
  simpa using List.find?_some h

/-- Filtering the ranked entries through the user-dict lookup and the
date guards only removes entries: the surviving ids form a sublist of
the ranked ids. -/
theorem filterMap_enrich_ids_sublist (users : List Record)
    (sd ed : Option Int) :
    ∀ l : List (String × α × String),
    List.Sublist
      ((l.filterMap (enrichEntry (usersDict users) sd ed)).map
        (fun r => r.1.id))
      (l.map (fun e => e.1))
  | [] => List.Sublist.refl []
  | x :: xs => by
    cases hfx : enrichEntry (usersDict users) sd ed x with
    | none =>
      rw [List.filterMap_cons_none hfx, List.map_cons]
      exact (filterMap_enrich_ids_sublist users sd ed xs).cons _
    | some y =>
      have hy : y.1.id = x.1 := by
        unfold enrichEntry at hfx
        cases hget : dictGet (usersDict users) x.1 with
        | none => rw [hget] at hfx; exact absurd hfx (by simp)
        | some u =>
          rw [hget] at hfx
          dsimp only at hfx
          by_cases hd : dateFilterPass sd ed u = true
          · rw [if_pos hd] at hfx
            cases hfx
            exact usersDict_id users x.1 u hget
          · rw [if_neg hd] at hfx; cases hfx
      rw [List.filterMap_cons_some hfx, List.map_cons, List.map_cons, hy]
      exact (filterMap_enrich_ids_sublist users sd ed xs).cons₂ _

/-- **C8.** The `/users/search` handler asks the ranker for an
oversampled `limit * 2` entries; it then applies the user-dict and
date-range filters post-ranking — these only remove entries and never
reorder the ranked sequence — and truncates the filtered sequence to at
most the requested `limit`. -/
theorem c8_oversample_filter_truncate {V : Type} [LinearOrder α]
    (m : String → V) (sim : V → V → α) (users : List Record) (s : VState V)
    (q : String) (limit : Nat) (sd ed : Option Int)
    (hlim : 1 ≤ limit) (ranked : List (String × α × String))
    (hok : search_similar_professions m sim q (limit * 2) s = .ok ranked) :
    ∃ out, search_users_by_profession m sim users s q limit sd ed = .ok out ∧
      out = (ranked.filterMap (enrichEntry (usersDict users) sd ed)).take
        limit ∧
      List.Sublist (out.map (fun r => r.1.id)) (ranked.map (fun e => e.1)) ∧
      out.length ≤ limit := by
  refine ⟨collectLimited (enrichEntry (usersDict users) sd ed) limit ranked,
    ?_, ?_, ?_, ?_⟩
  · unfold search_users_by_profession
    rw [hok]
  · exact collectLimited_eq _ ranked limit hlim
  · rw [collectLimited_eq _ ranked limit hlim]
    exact List.Sublist.trans
      ((List.take_sublist _ _).map _)
      (filterMap_enrich_ids_sublist users sd ed ranked)
  · rw [collectLimited_eq _ ranked limit hlim]
    exact (List.length_take _ _).le.trans (Nat.min_le_left _ _)

/-- Witness for **C8** on a concrete store, user list and query. -/
theorem c8_oversample_filter_truncate_witness :
    ∃ out, search_users_by_profession (fun t => (t.length : Int))
        (fun a b => a * b)
        [⟨"a", "xx", none⟩, ⟨"b", "yyy", some 5⟩]
        ⟨true, [("a", 2), ("b", 3)], [("a", "xx"), ("b", "yyy")]⟩
        "qq" 1 none none = .ok out ∧
      out = (([("b", (6 : Int), "yyy"), ("a", 4, "xx")] :
          List (String × Int × String)).filterMap
        (enrichEntry
          (usersDict [⟨"a", "xx", none⟩, ⟨"b", "yyy", some 5⟩]) none
            none)).take 1 ∧
      List.Sublist (out.map (fun r => r.1.id))
        (([("b", (6 : Int), "yyy"), ("a", 4, "xx")] :
          List (String × Int × String)).map (fun e => e.1)) ∧
      out.length ≤ 1 :=
  c8_oversample_filter_truncate (fun t => (t.length : Int)) (fun a b => a * b)
    [⟨"a", "xx", none⟩, ⟨"b", "yyy", some 5⟩]
    ⟨true, [("a", 2), ("b", 3)], [("a", "xx"), ("b", "yyy")]⟩
    "qq" 1 none none (by simp) [("b", 6, "yyy"), ("a", 4, "xx")] rfl

/-- **C9.** When the input contains several records sharing the same
non-empty id (with non-empty professions), the store keeps exactly one
entry for that id — the keys are distinct — holding the embedding and
text of the last such record in input order (`lastValid`), and the
store size equals the number of distinct ids among the valid records. -/
theorem c9_duplicate_ids {V : Type} (m : String → V) (csv : List Record)
    (s : VState V) :
    ((initialize_vector_db m csv s).embeddings.map Prod.fst).Nodup ∧
    (∀ k, dictGet (initialize_vector_db m csv s).embeddings k =
      (lastValid csv k).map (fun u => m u.profession)) ∧
    (∀ k, dictGet (initialize_vector_db m csv s).professions k =
      (lastValid csv k).map (·.profession)) ∧
    (initialize_vector_db m csv s).embeddings.length =
      ((csv.filter validRecord).map (·.id)).toFinset.card := by
  refine ⟨nodup_keys_init m csv s, embeddings_init_get m csv s,
    professions_init_get m csv s, ?_⟩
  have hmem : ∀ k, k ∈ (initialize_vector_db m csv s).embeddings.map Prod.fst
      ↔ k ∈ (csv.filter validRecord).map (·.id) := by
    intro k
    rw [← dictGet_isSome_iff, embeddings_init_get]
    unfold lastValid
    rw [Option.isSome_map', List.find?_isSome]
    simp [List.mem_reverse, List.mem_map, beq_iff_eq]
  have hnodup := nodup_keys_init m csv s
  have h2 : ((initialize_vector_db m csv s).embeddings.map Prod.fst).toFinset
      = ((csv.filter validRecord).map (·.id)).toFinset := by
    apply Finset.ext
    intro a
    simp only [List.mem_toFinset]
    exact hmem a
  calc (initialize_vector_db m csv s).embeddings.length
      = ((initialize_vector_db m csv s).embeddings.map Prod.fst).length :=
        (List.length_map _ _).symm
    _ = ((initialize_vector_db m csv s).embeddings.map
          Prod.fst).toFinset.card := (List.toFinset_card_of_nodup hnodup).symm
    _ = ((csv.filter validRecord).map (·.id)).toFinset.card := by rw [h2]

/-- A record with no (or empty) `created_date` passes both date
guards. -/
theorem datePass_of_none (sd ed : Option Int) (u : Record)
    (hu : u.created_date = none) : dateFilterPass sd ed u = true := by
  unfold dateFilterPass
  rw [hu]
  cases sd <;> cases ed <;> rfl

/-- **C10.** In both the `/users` listing and the `/users/search`
handler, a record whose `created_date` is absent (or empty, parsed as
`none`) is never excluded by the `start_date`/`end_date` filters: it is
excluded from `/users` only by the profession filter, and in
`/users/search` the per-entry filter always accepts it once its id is
found in the user dict. -/
theorem c10_missing_created_date (users : List Record) (sd ed : Option Int)
    (prof : Option String) (u : Record) (hu : u.created_date = none) :
    (u ∈ get_users users sd ed prof ↔
      u ∈ users ∧ professionPass prof u = true) ∧
    (∀ (ud : List (String × Record)) (e : String × α × String),
      dictGet ud e.1 = some u → enrichEntry ud sd ed e = some (u, e.2.1)) := by
  have hpass := datePass_of_none sd ed u hu
  constructor
  · unfold get_users
    rw [List.mem_filter]
    simp [hpass]
  · intro ud e hget
    unfold enrichEntry
    rw [hget]
    dsimp only
    rw [if_pos hpass]

/-- A concrete record with no `created_date`, for exercising `c10`. -/
def u0 : Record := ⟨"a", "p", none⟩

/-- Witness for **C10** on a concrete user and date range. -/
theorem c10_missing_created_date_witness :
    (u0 ∈ get_users [u0] (some 5) (some 7) none ↔
      u0 ∈ [u0] ∧ professionPass none u0 = true) ∧
    enrichEntry [("a", u0)] (some 5) (some 7) ("a", (3 : Int), "p") =
      some (u0, 3) := by
  have h := c10_missing_created_date (α := Int) [u0] (some 5) (some 7) none
    u0 rfl
  exact ⟨h.1, h.2 [("a", u0)] ("a", 3, "p") (by simp [dictGet, u0])⟩
